import Mathlib

/-!
Verification of the monoruby JIT core against its specification.

The definitions below are shallow embeddings of the x86-64 code emitted by the
JIT code generator (src/executor/compiler.rs, src/executor/compiler/jitgen.rs,
src/executor/globals/compiler.rs, src/executor/globals/compiler/jitgen/method_call.rs)
and of the runtime helpers it calls.  Sixty-four bit machine words are modelled
as `Nat` below `2 ^ 64` (or as signed `Int` in `[-2 ^ 63, 2 ^ 63)` where the
emitted code branches on signed overflow), and each helper definition carries a
doc comment naming the instruction sequence it embeds.  A `none` result models a
jump out of the fast path (side exit, generic slow path, or error return).
-/

/-! ## Tagged-value constants

The file value.rs of the repository is not under src/.  The distinguished
constants are modelled from the spec (section 3, TaggedValue): `NIL_VALUE`,
`TRUE_VALUE`, `FALSE_VALUE` sit in the pointer space with the low three bits
not carrying the fixnum or float tags, and `NIL_VALUE ||| 0x10 = FALSE_VALUE`
folds nil into the false equivalence class.
-/

/-- Modelled from the spec: the tagged representation of `nil`. -/
def NIL_VALUE : Nat := 0x04

/-- Modelled from the spec: the tagged representation of `false`;
equals `NIL_VALUE ||| 0x10`. -/
def FALSE_VALUE : Nat := 0x14

/-- Modelled from the spec: the tagged representation of `true`;
satisfies `TRUE_VALUE ||| 0x10 ≠ FALSE_VALUE`. -/
def TRUE_VALUE : Nat := 0x1c

/-! ## Signed 64-bit arithmetic (fixnum fast paths)

The fixnum fast paths branch on the x86-64 overflow flag (`jo`), so the
registers are modelled as signed integers in `[-2 ^ 63, 2 ^ 63)`.
-/

/-- Two's-complement wrap of an x86-64 arithmetic result into
`[-2 ^ 63, 2 ^ 63)`. -/
def wrap64 (x : Int) : Int := (x + 2 ^ 63) % 2 ^ 64 - 2 ^ 63

/-- Embeds `testq r, 0x1; jz generic` (guard_rdi_fixnum / guard_rsi_fixnum):
the fixnum-tag guard passes iff bit 0 of the register is set, i.e. the signed
value is odd. -/
def fixnum_guard_passes (x : Int) : Prop := x % 2 = 1

/-- Embeds `Value::integer(n)` for a small integer: `(n << 1) | 1`. -/
def fixnumEnc (n : Int) : Int := 2 * n + 1

/-- The i63 range of integers representable as fixnums. -/
def inFixnumRange (n : Int) : Prop := -(2 ^ 62) ≤ n ∧ n ≤ 2 ^ 62 - 1

instance (n : Int) : Decidable (inFixnumRange n) := by
  unfold inFixnumRange; infer_instance

/-- Embeds the fixnum fast path of `gen_binop_integer` for `BinOpK::Add` in
RR mode (jitgen.rs): after both operands passed the fixnum guards,
`subq rdi, 1; addq rdi, rsi; jo deopt;` and the result register is stored.
`none` models the jump to the side exit taken when the `addq` sets the
overflow flag (the `subq` cannot overflow on a tagged odd value and its flags
are not tested).  `fast_add` of the whole-method compiler (compiler.rs) emits
the same arithmetic through `rax` with the generic slow path as the overflow
target. -/
def gen_binop_integer_add_rr (rdi rsi : Int) : Option Int :=
  let t := wrap64 (rdi - 1)
  if -(2 ^ 63) ≤ t + rsi ∧ t + rsi ≤ 2 ^ 63 - 1 then some (t + rsi) else none

/-- Embeds the fixnum fast path of `gen_binop_integer` for `BinOpK::Sub` in
RR mode (jitgen.rs): `subq rdi, rsi; jo deopt; addq rdi, 1;` and the result
register is stored.  `none` models the jump to the side exit on overflow of
the `subq`; the re-tagging `addq rdi, 1` is executed after the overflow test.
`fast_sub` of the whole-method compiler (compiler.rs) emits the same
arithmetic. -/
def gen_binop_integer_sub_rr (rdi rsi : Int) : Option Int :=
  if -(2 ^ 63) ≤ rdi - rsi ∧ rdi - rsi ≤ 2 ^ 63 - 1 then
    some (wrap64 (rdi - rsi + 1))
  else none

/-! ## Conditional branches (whole-method compiler, compiler.rs)

Embedding of the `BcOp::CondBr` and `BcOp::CondNotBr` arms of
`jit_compile_normal`.  The machine state carries the previous contents of
`rax` and the value currently held in the condition slot
`[rbp - conv(cond_)]`.
-/

/-- Machine state seen by a conditional-branch sequence: the previous
contents of `rax` and the 64-bit value in the condition slot. -/
structure CondRegState where
  rax : Nat
  slot : Nat
  deriving DecidableEq

/-- Embeds the `BcOp::CondBr` arm of `jit_compile_normal` (compiler.rs):
`movq rax, [rbp - cond]; orq rax, 0x10; cmpq rax, FALSE_VALUE; jne dest`.
Returns whether the branch is taken together with the final contents of
`rax`. -/
def condBrEmitted (s : CondRegState) : Bool × Nat :=
  let rax := s.slot
  let rax := rax ||| 0x10
  (rax != FALSE_VALUE, rax)

/-- Embeds the `BcOp::CondNotBr` arm of `jit_compile_normal` (compiler.rs):
`cmpq rax, [rbp - cond]; orq rax, 0x10; cmpq rax, FALSE_VALUE; jeq dest`.
The first `cmpq` only sets flags (which the following instructions overwrite)
and leaves `rax` unchanged, so the branch decision depends on the previous
contents of `rax`, not on the condition slot.  Returns whether the branch is
taken together with the final contents of `rax`. -/
def condNotBrEmitted (s : CondRegState) : Bool × Nat :=
  let rax := s.rax
  let rax := rax ||| 0x10
  (rax == FALSE_VALUE, rax)

/-- Truthiness of a tagged value as the spec states it: every value other
than `nil` and `false` is truthy, decided by `v ||| 0x10 ≠ FALSE_VALUE`. -/
def truthyValue (v : Nat) : Bool := (v ||| 0x10) != FALSE_VALUE

/-! ## Link modes and the basic-block merge (jitgen.rs, globals/compiler.rs)

`LinkMode` describes how a stack slot is mirrored in an xmm register.  The
same enum and the same `StackSlotInfo::merge` body appear in both
src/executor/compiler/jitgen.rs and src/executor/globals/compiler.rs.
-/

/-- Mode of linkage between a stack slot and an xmm register
(enum LinkMode). -/
inductive LinkMode where
  /-- Linked to an xmm register for reading and writing; the stack slot is
  stale until written back. -/
  | XmmRW (f : Nat)
  /-- Linked to an xmm register as a read-only mirror; the stack slot is
  authoritative. -/
  | XmmR (f : Nat)
  /-- No linkage with any xmm register. -/
  | None
  deriving DecidableEq, Repr

/-- Embeds the per-slot join of `StackSlotInfo::merge` (the closure body
applied to each zipped pair of slot modes). -/
def LinkMode.merge : LinkMode → LinkMode → LinkMode
  | .XmmR l, .XmmR _ => .XmmR l
  | .XmmR l, .XmmRW _ => .XmmR l
  | .XmmRW l, .XmmR _ => .XmmR l
  | .XmmRW l, .XmmRW _ => .XmmRW l
  | _, _ => .None

/-- Embeds `StackSlotInfo::merge`: `self.0.iter_mut().zip(other.0.iter())`
applies the per-slot join pointwise. -/
def StackSlotInfo.merge (s other : List LinkMode) : List LinkMode :=
  List.zipWith LinkMode.merge s other

/-- Embeds `StackSlotInfo::merge_entries`: fold `merge` over the stack-slot
infos of all pending branch entries, seeded with the first entry. -/
def StackSlotInfo.merge_entries (first : List LinkMode) (rest : List (List LinkMode)) :
    List LinkMode :=
  rest.foldl StackSlotInfo.merge first

/-- The join rule exactly as the claim states it (spec wording), to be
compared with the source-derived `LinkMode.merge`. -/
def claimJoin : LinkMode → LinkMode → LinkMode
  | .XmmR l, .XmmR _ => .XmmR l
  | .XmmRW l, .XmmR _ => .XmmR l
  | .XmmR l, .XmmRW _ => .XmmR l
  | .XmmRW l, .XmmRW _ => .XmmRW l
  | _, _ => .None

/-! ## Float-speculated divide (gen_binop_float, BinOpK::Div) -/

/-- Outcome of the float divide fast path: either control transfers to the
`div_by_zero` trampoline, or `divsd` is executed on the two operands. -/
inductive FloatDivOutcome where
  | divByZero
  | divide (lhsBits rhsBits : Nat)
  deriving DecidableEq

/-- Embeds the `BinOpK::Div` arms of `gen_binop_float` (jitgen.rs):
`movq rax, xmm(divisor); testq rax, rax; jeq div_by_zero; ... divsd ...`.
Both the `fret == frhs` and the `fret != frhs` arm test the raw bit pattern
of the divisor against zero with `testq` before dividing.  The operands are
the unboxed f64 bit patterns held in the xmm registers. -/
def gen_binop_float_div (flhsBits frhsBits : Nat) : FloatDivOutcome :=
  if frhsBits = 0 then .divByZero else .divide flhsBits frhsBits

/-- Result of the `div_by_zero` trampoline built in `Codegen::new`
(globals/compiler.rs): `call error_divide_by_zero; xorq rax, rax; leave; ret`
sets the divide-by-zero error on the interpreter and returns the null
`Option<Value>::None`. -/
structure TrampolineResult where
  error_set : Bool
  returned : Option Nat
  deriving DecidableEq

/-- The `div_by_zero` trampoline: error set, `None` returned (`rax = 0`). -/
def div_by_zero_tramp : TrampolineResult := ⟨true, none⟩

/-- IEEE-754 double exponent field of a 64-bit bit pattern. -/
def f64Exponent (b : Nat) : Nat := b / 2 ^ 52 % 2 ^ 11

/-- IEEE-754 double mantissa field of a 64-bit bit pattern. -/
def f64Mantissa (b : Nat) : Nat := b % 2 ^ 52

/-- A bit pattern encodes an IEEE NaN iff the exponent field is all ones and
the mantissa is nonzero. -/
def f64IsNan (b : Nat) : Bool := f64Exponent b == 2047 && f64Mantissa b != 0

/-- A bit pattern encodes a zero double (`+0.0` or `-0.0`). -/
def f64IsZero (b : Nat) : Bool := b == 0 || b == 2 ^ 63

/-! ## JIT compilation stub (gen_jit_stub, globals/compiler.rs) -/

/-- State of a function's code pointer: still the JIT stub with its hotness
counter (initialized by `jit.const_i32(5)`), or already patched into a
direct jump to the compiled entry. -/
inductive CodePtrState where
  | stub (counter : Int)
  | patched (entry : Nat)
  deriving DecidableEq

/-- Outcome observed by one call arriving at the function's code pointer. -/
inductive StubOutcome where
  | vmEntry
  | compiledAndJumped (entry : Nat)
  | jumped (entry : Nat)
  deriving DecidableEq

/-- Embeds `gen_jit_stub` (globals/compiler.rs): a call into the stub runs
`subl [rip + counter], 1; jne vm_entry;`, and only when the decremented
counter reaches zero calls `Self::exec_jit_compile`, overwrites the stub
with a direct jump to the returned code pointer
(`movw [rip + entry], 0xe9; ...; movl [rdi - 4], rax`) and jumps there.
`compiledEntry` abstracts the code pointer returned by `exec_jit_compile`.
Once patched, every later call jumps straight to the compiled entry. -/
def stubStep (compiledEntry : Nat) : CodePtrState → CodePtrState × StubOutcome
  | .stub c =>
      if c - 1 ≠ 0 then (.stub (c - 1), .vmEntry)
      else (.patched compiledEntry, .compiledAndJumped compiledEntry)
  | .patched e => (.patched e, .jumped e)

/-- The code-pointer state after `n` calls have arrived, starting from the
fresh stub whose counter constant is 5. -/
def stubAfterCalls (compiledEntry : Nat) : Nat → CodePtrState
  | 0 => .stub 5
  | n + 1 => (stubStep compiledEntry (stubAfterCalls compiledEntry n)).1

/-! ## Whole-method prologue (prologue, jitgen.rs) -/

/-- Embeds the slot-clearing loop of `prologue` (jitgen.rs): with
`clear_len = regs - args`, both emission branches (the `clear_len > 2`
rax-based form and the immediate form) store `NIL_VALUE` to slot `args + i`
for every `i in 0..clear_len`, via
`movq [rbp - ((args + i) * 8 + 16)], rax/NIL_VALUE`. -/
def prologue_nil_slots (regs args : Nat) : List Nat :=
  let clear_len := regs - args
  if clear_len > 2 then (List.range clear_len).map (fun i => args + i)
  else (List.range clear_len).map (fun i => args + i)

/-- Effect of the prologue's NIL stores on the register-slot area: `init`
lists the slot values exactly as the caller staged them (`self` in slot 0,
then the arguments, then garbage in the remaining slots). -/
def run_prologue (regs args : Nat) (init : List Nat) : List Nat :=
  (prologue_nil_slots regs args).foldl (fun st s => st.set s NIL_VALUE) init

/-! ## Runtime index operations (get_index / set_index, globals/compiler.rs) -/

/-- Shallow model of a runtime Value as far as the index operations inspect
it: nil, a fixnum, an Array, or any other object. -/
inductive RVal where
  | vnil
  | vint (i : Int)
  | varr (elems : List RVal)
  | vother

/-- Embeds `Value::try_fixnum` as used by `get_index` and `set_index`. -/
def try_fixnum : RVal → Option Int
  | .vint i => some i
  | _ => none

/-- Result of `get_index`: `ret v` models `Some(v)`; `fallbackInvoke` models
the dispatch `interp.invoke_method(globals, IdentId::_INDEX, ...)` taken
when the receiver is not an Array or the index is not a fixnum. -/
inductive GetIndexResult where
  | ret (v : RVal)
  | fallbackInvoke

/-- Embeds the runtime function `get_index` (globals/compiler.rs): for an
Array receiver and fixnum index, a nonnegative index reads
`v.get(idx as usize).cloned().unwrap_or_default()`; a negative index is
biased by the length and reads nil when it stays negative.
`Value::default()` is modelled from the spec as nil (value.rs is not under
src/; out-of-range reads yield nil per the language semantics in section 7
of the spec). -/
def get_index (base index : RVal) : GetIndexResult :=
  match base with
  | .varr v =>
    match try_fixnum index with
    | some idx =>
        if 0 ≤ idx then .ret ((v.get? idx.toNat).getD .vnil)
        else
          let idx2 := (v.length : Int) + idx
          if idx2 < 0 then .ret .vnil
          else .ret ((v.get? idx2.toNat).getD .vnil)
    | none => .fallbackInvoke
  | _ => .fallbackInvoke

/-- Result of `set_index`: `ret src newElems` models `Some(src)` together
with the mutated array contents; `errIndexTooSmall idx low` models
`globals.err_index_too_small(idx, -(v.len() as i64)); return None`. -/
inductive SetIndexResult where
  | ret (src : RVal) (newElems : List RVal)
  | errIndexTooSmall (idx low : Int)
  | fallbackInvoke

/-- Embeds the runtime function `set_index` (globals/compiler.rs): for an
Array receiver and fixnum index, a nonnegative in-range index overwrites in
place (`get_mut` succeeds); a nonnegative out-of-range index extends the
array with nils up to the index and pushes the value; a negative index is
biased by the length, and only when it stays negative is the
index-too-small error set and `None` returned. -/
def set_index (base index src : RVal) : SetIndexResult :=
  match base with
  | .varr v =>
    match try_fixnum index with
    | some idx =>
        if 0 ≤ idx then
          if idx.toNat < v.length then .ret src (v.set idx.toNat src)
          else .ret src (v ++ List.replicate (idx.toNat - v.length) .vnil ++ [src])
        else
          let p := (v.length : Int) + idx
          if p < 0 then .errIndexTooSmall idx (-(v.length : Int))
          else .ret src (v.set p.toNat src)
    | none => .fallbackInvoke
  | _ => .fallbackInvoke

/-! ## BBContext and the deopt write-back (jitgen.rs) -/

/-- The write-back filter predicate of `get_write_back`:
`matches!(self.stack_slot[**reg], LinkMode::XmmRW(_))`. -/
def LinkMode.isRW : LinkMode → Bool
  | .XmmRW _ => true
  | _ => false

/-- Per-basic-block abstract state (struct BBContext): for every stack slot
its link mode, and for every xmm register the set of slots it backs
(`xmm: [Vec<SlotId>; 14]`, modelled as a list of slot lists). -/
structure BBContext where
  stack_slot : List LinkMode
  xmm : List (List Nat)

/-- Embeds `BBContext::get_write_back` (jitgen.rs): for every xmm register
with a nonempty slot set, keep the backed slots whose link mode is `XmmRW`
(`matches!(self.stack_slot[**reg], LinkMode::XmmRW(_))`), and drop the
pairs whose filtered slot set is empty. -/
def BBContext.get_write_back (ctx : BBContext) : List (Nat × List Nat) :=
  ((List.range ctx.xmm.length).filterMap (fun i =>
      if (ctx.xmm.getD i []).isEmpty then none
      else some (i, (ctx.xmm.getD i []).filter (fun reg =>
        (ctx.stack_slot.getD reg .None).isRW)))).filter (fun p => !p.2.isEmpty)

/-- Operations performed by a side-exit entry on the deopt page. -/
inductive DeoptOp where
  /-- One `gen_write_back_single` group: `movq xmm0, xmm(freg + 2);
  call f64_to_val;` followed by a store of `rax` into every slot of the
  group. -/
  | writeBackXmm (freg : Nat) (slots : List Nat)
  /-- Embeds `movq r13, (pc.0)`: the bytecode PC to re-execute. -/
  | setPC (pc : Nat)
  /-- Embeds `jmp fetch`, the jump into the VM dispatcher entry
  `vm_fetch`. -/
  | jmpVmFetch
  deriving DecidableEq

/-- Embeds `gen_side_deopt_dest` (jitgen.rs): on the deopt page, emit
`gen_write_back(wb)` — one `gen_write_back_single` per pair (the source
wraps this in a nonempty test that emits nothing for an empty `wb`, which
an empty map reproduces) — then `movq r13, (pc.0)`, then `jmp fetch` where
`fetch` is `self.vm_fetch`. -/
def gen_side_deopt_dest (pc : Nat) (wb : List (Nat × List Nat)) : List DeoptOp :=
  wb.map (fun p => DeoptOp.writeBackXmm p.1 p.2) ++
    [DeoptOp.setPC pc, DeoptOp.jmpVmFetch]

/-- Embeds `Codegen::deopt` and the `side_exit` uses in
`xmm_read_assume_float`: the side exit generated for a context writes back
`ctx.get_write_back()`. -/
def deoptEntry (ctx : BBContext) (pc : Nat) : List DeoptOp :=
  gen_side_deopt_dest pc ctx.get_write_back

/-- The slots a deopt entry stores back from xmm registers. -/
def deoptWrittenSlots (ops : List DeoptOp) : List Nat :=
  ops.flatMap (fun op => match op with
    | .writeBackXmm _ slots => slots
    | _ => [])

/-- Well-formedness of a BBContext (the BBContext-soundness invariant of
spec section 8): every xmm-linked slot is registered in that xmm's slot
set. -/
def BBContext.wfb (ctx : BBContext) : Bool :=
  (List.range ctx.stack_slot.length).all (fun s =>
    match ctx.stack_slot.getD s .None with
    | .XmmRW f => decide (f < ctx.xmm.length) && (ctx.xmm.getD f []).contains s
    | .XmmR f => decide (f < ctx.xmm.length) && (ctx.xmm.getD f []).contains s
    | .None => true)

/-! ## Float boxing and unboxing (globals/compiler.rs) -/

/-- Semantics of `rolq x, 3` on a 64-bit word: rotate left by three. -/
def rolq3 (x : Nat) : Nat := x % 2 ^ 61 * 8 + x / 2 ^ 61

/-- Semantics of `rolq x, 61` on a 64-bit word: rotate right by three. -/
def rorq3 (x : Nat) : Nat := x % 8 * 2 ^ 61 + x / 8

/-- Semantics of `andq x, (-4)` on a 64-bit word: clear the two low bits. -/
def andNeg4 (x : Nat) : Nat := x / 4 * 4

/-- Modelled from the spec: value.rs is not under src/.  `FLOAT_ZERO` is
the distinguished inline representation of float zero returned by
`Value::new_float(0.0)` and compared against by the unboxing routine: a
compile-time constant in the inline-float tag space (low three bits `010`),
with the sign bit set. -/
def FLOAT_ZERO : Nat := 2 ^ 63 + 2

/-- A boxed runtime value produced by float boxing: an inline tagged word,
or a heap allocation.  The heap constructor is modelled from the spec
(`Value::new_float`'s RValue allocation and `Value::val_tof` are not under
src/): a heap-boxed float carries its f64 bits, and unboxing through the
`heap_to_f64` trampoline returns exactly those bits. -/
inductive BoxedVal where
  | inline (w : Nat)
  | heap (bits : Nat)
  deriving DecidableEq

/-- Embeds `generate_f64_to_val` (globals/compiler.rs).  Entry:
`xorps xmm1, xmm1; ucomisd xmm0, xmm1; jne normal; jp normal;` returns
`Value::new_float(0.0)` — the comparison against zero succeeds exactly on
the bit patterns of `+0.0` and `-0.0`, while NaN takes the parity branch to
`normal` and from there the heap path.  At `normal`:
`rcx = ((bits >> 60) + 1) & 6;` jumps to `heap_alloc` when `rcx ≠ 4`, and
otherwise produces the inline encoding
`rolq rax, 3; andq rax, (-4); orq rax, 2` (the `orq` adds 2 into the two
just-cleared low bits).  `heap_alloc` calls `Value::new_float`. -/
def f64_to_val (b : Nat) : BoxedVal :=
  if b = 0 ∨ b = 2 ^ 63 then .inline FLOAT_ZERO
  else if (b / 2 ^ 60 + 1) &&& 6 = 4 then .inline (andNeg4 (rolq3 b) + 2)
  else .heap b

/-- Embeds `gen_val_to_f64_assume_float` (globals/compiler.rs):
`testq rdi, 0b01; jnz side_exit;` (fixnum tag: side exit, modelled `none`);
`testq rdi, 0b10; jz heap;` (pointer tag: unbox through `heap_to_f64`,
which on a non-float heap object returns null and side-exits — an inline
word with a pointer tag is modelled as that side exit);
`cmpq rdi, FLOAT_ZERO; je exit` with the xmm register zeroed by `xorps`
(yielding `+0.0`); otherwise the low bits are rebuilt from the sign
(`movq rax, rdi; sarq rax, 63; addq rax, 2; andq rdi, (-4); orq rdi, rax`)
and the word is rotated back (`rolq rdi, 61`). -/
def val_to_f64_assume_float (v : BoxedVal) : Option Nat :=
  match v with
  | .heap bits => some bits
  | .inline w =>
    if w % 2 = 1 then none
    else if w / 2 % 2 = 0 then none
    else if w = FLOAT_ZERO then some 0
    else some (rorq3 (andNeg4 w + (if w < 2 ^ 63 then 2 else 1)))

/-- The box-then-unbox round trip of C4: `f64_to_val` followed by the
assume-float `val_to_f64`. -/
def floatRoundTrip (b : Nat) : Option Nat :=
  val_to_f64_assume_float (f64_to_val b)

/-- Ordered IEEE-754 equality on bit patterns (the `ucomisd` plus
`jne`/`jp` discipline): a NaN compares non-equal to everything; the two
zeros are equal; otherwise the bit patterns must coincide. -/
def f64OrderedEq (a b : Nat) : Bool :=
  if f64IsNan a || f64IsNan b then false
  else if (a = 0 ∨ a = 2 ^ 63) ∧ (b = 0 ∨ b = 2 ^ 63) then true
  else a == b

/-! ## Inline method cache and the class-version counter

The compiled method-call sites (the `BcOp::FnCall` arm of
`jit_compile_normal` in compiler.rs, and `gen_call_not_cached` in
globals/compiler/jitgen/method_call.rs) keep per-site cache words — cached
class version, cached receiver class, patched call target — and compare
them against the receiver's dynamic class and the global class-version
counter before taking the patched fast path; `guard_version` emits the same
version compare for sites compiled against a baked-in cached version.  The
`BcOp::MethodDef` arm (compiler.rs) emits
`addq [rip + class_version], 1` followed by `call define_method`.  The
state machine below embeds those emitted behaviours; `resolve` stands for
the runtime resolver `find_method` (globals.rs walks the superclass chain;
for the cache claim only its dependence on the mutable method table and the
receiver class matters, so the table is keyed directly by receiver class
and name).
-/

/-- One compiled method-call site: the method name from the bytecode, the
cached class version (initialized to the `jit.const_i32(-1)` sentinel), the
cached receiver class (`jit.const_i32(0)`), and the patched call target
(initially the unpatched `entry_panic` patch point, modelled 0). -/
structure CallSite where
  name : Nat
  cached_version : Int
  cached_recv_class : Nat
  patched_target : Nat
  deriving DecidableEq

/-- The runtime method resolver `find_method` as a function of the method
table, receiver class and method name. -/
def resolve (table : List ((Nat × Nat) × Nat)) (recvClass nm : Nat) : Option Nat :=
  (table.find? (fun e => e.1.1 == recvClass && e.1.2 == nm)).map (fun e => e.2)

/-- Global state the call sites interact with: the class-version counter,
the method table, and the compiled call sites. -/
structure ICState where
  class_version : Nat
  table : List ((Nat × Nat) × Nat)
  sites : List CallSite
  deriving DecidableEq

/-- The initial state: class version 0, empty method table, and every
compiled call site holding the `-1` version sentinel so that its first call
takes the slow path. -/
def icInit (names : List Nat) : ICState :=
  ⟨0, [], names.map (fun nm => ⟨nm, -1, 0, 0⟩)⟩

/-- Events: a `MethodDef` instruction executes, or a call reaches call site
`site` with a receiver of dynamic class `recvClass`. -/
inductive ICEvent where
  | methodDef (cls nm fid : Nat)
  | call (site : Nat) (recvClass : Nat)
  deriving DecidableEq

/-- The fast-path condition of a call site: the emitted guards
`cmpl r15, [rip + cached_recv_class]; jne slow_path` and
`movl rax, [rip + global_class_version];
cmpl [rip + cached_class_version], rax; jne slow_path` both fall
through. -/
def fastPathTaken (s : ICState) (i recvClass : Nat) : Bool :=
  match s.sites.get? i with
  | some site =>
      recvClass == site.cached_recv_class &&
        site.cached_version == (s.class_version : Int)
  | none => false

/-- One step of the machine.  `methodDef` embeds the `BcOp::MethodDef` arm:
`addq [rip + class_version], 1` and then `call define_method`, which adds
the definition to the method table.  `call` embeds the emitted call-site
code: when both guards pass, the site invokes its patched target and
nothing changes; otherwise the slow path calls `entry_find_method` and, on
success, patches the site's meta/pc/code-pointer words and stores the
receiver class and the current global class version into the cache words
before jumping back to `method_resolved` (a failed resolution jumps to
`vm_return` leaving the site untouched). -/
def icStep (s : ICState) : ICEvent → ICState
  | .methodDef cls nm fid =>
      ⟨s.class_version + 1, ((cls, nm), fid) :: s.table, s.sites⟩
  | .call i recvClass =>
      match s.sites.get? i with
      | none => s
      | some site =>
        if recvClass == site.cached_recv_class &&
            site.cached_version == (s.class_version : Int) then s
        else
          match resolve s.table recvClass site.name with
          | none => s
          | some fid =>
              ⟨s.class_version, s.table,
                s.sites.set i ⟨site.name, (s.class_version : Int), recvClass, fid⟩⟩

/-- Running a sequence of events from a state. -/
def icRun (s : ICState) (es : List ICEvent) : ICState := es.foldl icStep s

/-- The cache-coherence invariant: a site's cached version never exceeds
the global class version, and a site whose cached version is current holds
exactly the target the current table resolves its name to for its cached
receiver class. -/
def icInv (s : ICState) : Prop :=
  ∀ i site, s.sites.get? i = some site →
    site.cached_version ≤ (s.class_version : Int) ∧
    (site.cached_version = (s.class_version : Int) →
      resolve s.table site.cached_recv_class site.name = some site.patched_target)

/-- Site `i` is stale: its cached version is strictly behind the global
class version, so its next call must take the slow path. -/
def icStale (s : ICState) (i : Nat) : Prop :=
  ∀ site, s.sites.get? i = some site →
    site.cached_version < (s.class_version : Int)

/-! # Theorems -/

/-- Helper: evaluation of the assume-float decoder on an inline word with
the float tag that is not the zero sentinel. -/
theorem decode_inline_closed (w b : Nat)
    (hodd : w % 2 = 0) (htag : w / 2 % 2 = 1) (hnz : w ≠ FLOAT_ZERO)
    (hdec : rorq3 (andNeg4 w + (if w < 2 ^ 63 then 2 else 1)) = b) :
    val_to_f64_assume_float (.inline w) = some b := by
  simp only [val_to_f64_assume_float]
  rw [if_neg (by omega), if_neg (by omega), if_neg hnz, hdec]

/-- Helper: the write-back filter predicate holds exactly on `XmmRW`-linked
modes. -/
theorem isRW_of_pred {m : LinkMode} (h : m.isRW = true) :
    ∃ f, m = LinkMode.XmmRW f := by
  cases m with
  | XmmRW f => exact ⟨f, rfl⟩
  | XmmR f => cases h
  | None => cases h

/-- Helper: a foldl of NIL stores leaves the slot-list length unchanged. -/
theorem foldl_set_length (l : List Nat) (st : List Nat) :
    (l.foldl (fun a i => a.set i NIL_VALUE) st).length = st.length := by
  induction l generalizing st with
  | nil => rfl
  | cons i rest ih => simpa using ih (st.set i NIL_VALUE)

/-- Helper: reading slot `s` after a foldl of NIL stores yields NIL when `s`
was stored to, and the original contents otherwise. -/
theorem foldl_set_get? (l : List Nat) (st : List Nat) (s : Nat) (hs : s < st.length) :
    (l.foldl (fun a i => a.set i NIL_VALUE) st).get? s =
      if s ∈ l then some NIL_VALUE else st.get? s := by
  induction l generalizing st with
  | nil => simp
  | cons i rest ih =>
    have hlen : s < (st.set i NIL_VALUE).length := by simpa using hs
    rw [List.foldl_cons, ih (st.set i NIL_VALUE) hlen]
    by_cases hmem : s ∈ rest
    · simp [hmem]
    · by_cases hi : s = i
      · subst hi
        simp [hmem, List.getElem?_set_self hs]
      · simp [hmem, hi, List.getElem?_set_ne (fun h => hi h.symm)]

/-- Helper: once the stub is patched, it stays patched. -/
theorem stubAfterCalls_patched (e n : Nat) :
    stubAfterCalls e (n + 5) = .patched e := by
  induction n with
  | zero => rfl
  | succ m ih =>
    have : m + 1 + 5 = (m + 5) + 1 := by omega
    rw [this, stubAfterCalls, ih, stubStep]

/-- C6: the per-slot join used when merging pending `BBContext` entries at a
basic-block head equals the rule the spec states for every pair of link
modes: `(XmmR l, XmmR r) ↦ XmmR l`; `(XmmRW l, XmmR _)` and
`(XmmR l, XmmRW _) ↦ XmmR l`; `(XmmRW l, XmmRW r) ↦ XmmRW l`; every other
combination `↦ None`. -/
theorem merge_matches_spec_join (l r : LinkMode) :
    LinkMode.merge l r = claimJoin l r := by
  cases l <;> cases r <;> rfl

/-- C3: on fixnum-tagged operands `fixnumEnc a` and `fixnumEnc b` (which pass
both fixnum guards), the Add fast path `subq rdi, 1; addq rdi, rsi` branches
to the side exit exactly when the mathematical sum leaves the i63 fixnum
range (the condition under which the 64-bit add overflows), and otherwise
stores the fixnum encoding of `a + b`; the Sub fast path
`subq rdi, rsi; jo; addq rdi, 1` behaves symmetrically for `a - b`. -/
theorem fixnum_add_sub_fastpath (a b : Int)
    (ha : inFixnumRange a) (hb : inFixnumRange b) :
    fixnum_guard_passes (fixnumEnc a) ∧ fixnum_guard_passes (fixnumEnc b) ∧
    gen_binop_integer_add_rr (fixnumEnc a) (fixnumEnc b) =
      (if inFixnumRange (a + b) then some (fixnumEnc (a + b)) else none) ∧
    gen_binop_integer_sub_rr (fixnumEnc a) (fixnumEnc b) =
      (if inFixnumRange (a - b) then some (fixnumEnc (a - b)) else none) := by
  obtain ⟨ha1, ha2⟩ := ha
  obtain ⟨hb1, hb2⟩ := hb
  refine ⟨?_, ?_, ?_, ?_⟩
  · unfold fixnum_guard_passes fixnumEnc; omega
  · unfold fixnum_guard_passes fixnumEnc; omega
  · simp only [gen_binop_integer_add_rr, wrap64, fixnumEnc, inFixnumRange]
    split_ifs <;> first
      | (simp only [Option.some.injEq]; omega)
      | rfl
      | (exfalso; omega)
  · simp only [gen_binop_integer_sub_rr, wrap64, fixnumEnc, inFixnumRange]
    split_ifs <;> first
      | (simp only [Option.some.injEq]; omega)
      | rfl
      | (exfalso; omega)

/-- Witness for C3: a concrete in-range addition takes the fast path and
produces the tagged sum. -/
theorem fixnum_add_sub_fastpath_witness :
    gen_binop_integer_add_rr (fixnumEnc 2) (fixnumEnc 3) = some (fixnumEnc 5) := by
  have h := (fixnum_add_sub_fastpath 2 3
    (by unfold inFixnumRange; omega) (by unfold inFixnumRange; omega)).2.2.1
  rw [h, if_pos (by unfold inFixnumRange; omega)]
  norm_num

/-- C5 (code bug): the `CondBr` arm loads the condition slot, ors it with
0x10 and compares with `FALSE_VALUE`, so its branch decision is exactly the
truthiness of the slot (nil and false falsy, fixnum 0 truthy); but the
`CondNotBr` arm emits `cmpq rax, [rbp - cond]` instead of loading the slot
into `rax`, so its branch decision depends only on the stale previous
contents of `rax`: with the slot holding `FALSE_VALUE` (falsy, branch should
be taken) and `rax` holding `TRUE_VALUE`, the emitted code does not branch. -/
theorem condnotbr_ignores_slot :
    (∀ rax slot, (condBrEmitted ⟨rax, slot⟩).1 = truthyValue slot) ∧
    truthyValue NIL_VALUE = false ∧
    truthyValue FALSE_VALUE = false ∧
    truthyValue (0x1) = true ∧
    (condNotBrEmitted ⟨TRUE_VALUE, FALSE_VALUE⟩).1 = false ∧
    (∀ rax slot slot2,
      (condNotBrEmitted ⟨rax, slot⟩).1 = (condNotBrEmitted ⟨rax, slot2⟩).1) := by
  refine ⟨fun rax slot => rfl, by decide, by decide, by decide, by decide,
    fun rax slot slot2 => rfl⟩

/-- C7 (corrected): the float-divide fast path transfers to `div_by_zero`
exactly when the divisor bit pattern is all-zero, i.e. `+0.0`; the divisor
`-0.0` (bit pattern `2 ^ 63`) is also an IEEE zero but is not caught, and the
`divsd` is executed.  The `div_by_zero` trampoline itself sets the error and
returns `None`. -/
theorem float_div_zero_check (flhs frhs : Nat) :
    (gen_binop_float_div flhs frhs = .divByZero ↔ frhs = 0) ∧
    gen_binop_float_div flhs (2 ^ 63) = .divide flhs (2 ^ 63) ∧
    f64IsZero (2 ^ 63) = true ∧
    div_by_zero_tramp.error_set = true ∧
    div_by_zero_tramp.returned = none := by
  refine ⟨?_, ?_, by decide, rfl, rfl⟩
  · unfold gen_binop_float_div
    split_ifs with h
    · exact ⟨fun _ => h, fun _ => rfl⟩
    · exact ⟨(fun hc => nomatch hc), fun hc => absurd hc h⟩
  · unfold gen_binop_float_div
    norm_num

/-- Counterexample for C7: the claim asserts that a divisor equal to `-0.0`
transfers control to `div_by_zero`; the emitted `testq` checks the raw bits
against zero, `-0.0` has bit pattern `2 ^ 63 ≠ 0`, and the division is
executed instead. -/
theorem float_div_negzero_counterexample :
    gen_binop_float_div 0x3ff0000000000000 (2 ^ 63) =
      FloatDivOutcome.divide 0x3ff0000000000000 (2 ^ 63) ∧
    f64IsZero (2 ^ 63) = true ∧
    gen_binop_float_div 0x3ff0000000000000 (2 ^ 63) ≠ FloatDivOutcome.divByZero := by
  refine ⟨by decide, by decide, by decide⟩

/-- Counterexample for C8: on the very first call to a FuncId whose code
pointer is the fresh JIT stub (counter 5), the stub decrements the counter
to 4 and dispatches to `vm_entry`, the interpreter entry — it does not
invoke `exec_jit_compile` and does not patch itself. -/
theorem jit_stub_first_call_counterexample :
    stubStep 100 (.stub 5) = (.stub 4, .vmEntry) := by decide

/-- C8 (amended): the stub decrements its per-function counter (initialized
to 5) on every call and dispatches to the interpreter entry `vm_entry` while
the decremented counter is nonzero; on the call that brings it to zero (the
fifth), it calls `exec_jit_compile`, patches itself into a direct jump to
the compiled entry, and resumes there; every later call jumps straight to
the compiled entry. -/
theorem jit_stub_hotness (e n : Nat) :
    (n < 4 → (stubStep e (stubAfterCalls e n)).2 = .vmEntry) ∧
    (stubStep e (stubAfterCalls e 4)).2 = .compiledAndJumped e ∧
    (5 ≤ n → (stubStep e (stubAfterCalls e n)).2 = .jumped e) := by
  refine ⟨?_, ?_, ?_⟩
  · intro hn
    interval_cases n <;> simp [stubAfterCalls, stubStep]
  · simp [stubAfterCalls, stubStep]
  · intro hn
    obtain ⟨m, rfl⟩ : ∃ m, n = m + 5 := ⟨n - 5, by omega⟩
    rw [stubAfterCalls_patched, stubStep]

/-- Witness for C8: on the sixth call the stub has been patched and the call
jumps directly to the compiled entry. -/
theorem jit_stub_hotness_witness :
    (stubStep 100 (stubAfterCalls 100 5)).2 = .jumped 100 :=
  (jit_stub_hotness 100 5).2.2 (by omega)

/-- C10: the whole-method prologue initializes every non-argument register
slot (slot indexes from `total_arg_num` up to `total_reg_num - 1`) to
`NIL_VALUE` before any body instruction runs, and leaves slot 0 (`self`) and
the argument slots exactly as the caller wrote them. -/
theorem prologue_inits_nonarg_slots (regs args s : Nat) (init : List Nat)
    (hargs : args ≤ regs) (hlen : init.length = regs) (hs : s < regs) :
    (run_prologue regs args init).length = regs ∧
    (run_prologue regs args init).get? s =
      some (if s < args then init.getD s 0 else NIL_VALUE) := by
  constructor
  · rw [run_prologue, foldl_set_length, hlen]
  · have hmem : s ∈ prologue_nil_slots regs args ↔ (args ≤ s ∧ s < regs) := by
      show s ∈ (if regs - args > 2 then (List.range (regs - args)).map (args + ·)
          else (List.range (regs - args)).map (args + ·)) ↔ _
      split_ifs <;> simp only [List.mem_map, List.mem_range] <;>
        exact ⟨fun ⟨i, hi, he⟩ => by omega, fun h => ⟨s - args, by omega, by omega⟩⟩
    rw [run_prologue, foldl_set_get? _ _ _ (by omega)]
    by_cases hcase : s < args
    · rw [if_neg (by rw [hmem]; omega), if_pos hcase]
      simp [List.getElem?_eq_getElem (show s < init.length by omega)]
    · rw [if_pos (by rw [hmem]; omega), if_neg hcase]

/-- Witness for C10: compiling a method with one argument and three total
registers, the prologue leaves `self` (slot 0) and the argument (slot 1)
untouched and writes NIL into slot 2. -/
theorem prologue_inits_nonarg_slots_witness :
    (run_prologue 3 2 [11, 22, 33]).get? 0 = some 11 ∧
    (run_prologue 3 2 [11, 22, 33]).get? 2 = some NIL_VALUE := by
  have h0 := (prologue_inits_nonarg_slots 3 2 0 [11, 22, 33]
    (by omega) (by simp) (by omega)).2
  have h2 := (prologue_inits_nonarg_slots 3 2 2 [11, 22, 33]
    (by omega) (by simp) (by omega)).2
  refine ⟨?_, ?_⟩
  · rw [h0]; simp
  · rw [h2]; simp

/-- Counterexample for C9: the claim asserts that an out-of-range fixnum
index on an Array receiver makes `get_index` return `None` with an index
error set; in the code, `get_index` on the one-element array `[7]` with
index 5 returns `Some(nil)` — no error is set (the result type of the Array
fast path has no error outcome at all). -/
theorem get_index_out_of_range_counterexample :
    get_index (.varr [.vint 7]) (.vint 5) = .ret .vnil := rfl

/-- C9 (amended): for an Array receiver with a fixnum index, `get_index`
never produces an error — an out-of-range nonnegative index yields nil, and
every fixnum read returns `Some` value; `set_index` with a nonnegative
out-of-range index extends the array with nils and appends the value rather
than erring; only `set_index` with a negative index that stays negative
after biasing by the length sets the index-too-small error and returns
`None`. -/
theorem index_ops_amended (elems : List RVal) (idx : Int) (src : RVal) :
    (0 ≤ idx → (elems.length : Int) ≤ idx →
        get_index (.varr elems) (.vint idx) = .ret .vnil) ∧
    (∀ i : Int, ∃ v, get_index (.varr elems) (.vint i) = .ret v) ∧
    (0 ≤ idx → (elems.length : Int) ≤ idx →
        set_index (.varr elems) (.vint idx) src =
          .ret src (elems ++ List.replicate (idx.toNat - elems.length) .vnil ++ [src])) ∧
    (idx < 0 → (elems.length : Int) + idx < 0 →
        set_index (.varr elems) (.vint idx) src =
          .errIndexTooSmall idx (-(elems.length : Int))) := by
  refine ⟨?_, ?_, ?_, ?_⟩
  · intro h0 hlen
    simp only [get_index, try_fixnum, if_pos h0]
    rw [List.get?_eq_none.mpr (by omega)]
    rfl
  · intro i
    simp only [get_index, try_fixnum]
    split_ifs <;> exact ⟨_, rfl⟩
  · intro h0 hlen
    simp only [set_index, try_fixnum, if_pos h0]
    rw [if_neg (by omega)]
  · intro hneg hlow
    simp only [set_index, try_fixnum]
    rw [if_neg (by omega), if_pos (by omega)]

/-- Witness for C9: a concrete negative index below the start errors, and a
concrete nonnegative out-of-range store extends the array. -/
theorem index_ops_amended_witness :
    set_index (.varr [.vint 7]) (.vint (-3)) .vnil =
      .errIndexTooSmall (-3) (-1) ∧
    set_index (.varr [.vint 7]) (.vint 2) (.vint 9) =
      .ret (.vint 9) [.vint 7, .vnil, .vint 9] := by
  have h1 := (index_ops_amended [.vint 7] (-3) .vnil).2.2.2 (by omega) (by simp)
  have h2 := (index_ops_amended [.vint 7] 2 (.vint 9)).2.2.1 (by omega) (by simp)
  constructor
  · rw [h1]; norm_num
  · rw [h2]; rfl

/-- Counterexample for C2: the claim asserts the side-exit entry writes back
the slots linked in both `XmmRW` and `XmmR` modes; in a context whose only
live linkage is slot 0 mirrored read-only in xmm 0 (`XmmR 0`),
`get_write_back` is empty and the generated deopt entry contains no
write-back operation at all — it only sets `r13` and jumps to `vm_fetch`. -/
theorem deopt_skips_xmmr_counterexample :
    BBContext.get_write_back ⟨[LinkMode.XmmR 0], [[0]]⟩ = [] ∧
    deoptEntry ⟨[LinkMode.XmmR 0], [[0]]⟩ 7 =
      [DeoptOp.setPC 7, DeoptOp.jmpVmFetch] := by
  constructor <;> rfl

/-- C2 (amended): for every well-formed context, the side-exit entry built
by `gen_side_deopt_dest` writes back exactly the slots linked in `XmmRW`
mode (the `XmmR` mirrors are skipped, their stack slots being already
authoritative), and then sets `r13` to the bytecode PC to re-execute and
jumps to the VM fetch loop. -/
theorem side_deopt_writes_back_exactly_rw (ctx : BBContext) (pc : Nat)
    (hwf : ctx.wfb = true) :
    (∀ s, s ∈ deoptWrittenSlots (deoptEntry ctx pc) ↔
        ∃ f, ctx.stack_slot.getD s .None = .XmmRW f) ∧
    ∃ pre, deoptEntry ctx pc = pre ++ [DeoptOp.setPC pc, DeoptOp.jmpVmFetch] := by
  constructor
  · intro s
    have hmem : s ∈ deoptWrittenSlots (deoptEntry ctx pc) ↔
        ∃ p ∈ ctx.get_write_back, s ∈ p.2 := by
      unfold deoptEntry gen_side_deopt_dest deoptWrittenSlots
      constructor
      · intro h
        rcases List.mem_flatMap.mp h with ⟨op, hop, hs⟩
        rcases List.mem_append.mp hop with hA | hB
        · rcases List.mem_map.mp hA with ⟨p, hp, rfl⟩
          exact ⟨p, hp, hs⟩
        · simp only [List.mem_cons, List.mem_singleton] at hB
          rcases hB with rfl | rfl | hB
          · cases hs
          · cases hs
          · cases hB
      · rintro ⟨p, hp, hs⟩
        exact List.mem_flatMap.mpr ⟨DeoptOp.writeBackXmm p.1 p.2,
          List.mem_append_left _ (List.mem_map.mpr ⟨p, hp, rfl⟩), hs⟩
    rw [hmem]
    constructor
    · rintro ⟨p, hp, hs⟩
      have hp1 := (List.mem_filter.mp hp).1
      rcases List.mem_filterMap.mp hp1 with ⟨i, -, hi⟩
      split_ifs at hi with he
      obtain rfl := Option.some_inj.mp hi
      exact isRW_of_pred (List.mem_filter.mp hs).2
    · rintro ⟨f, hf⟩
      have hslt : s < ctx.stack_slot.length := by
        by_contra hge
        rw [List.getD_eq_default _ _ (by omega)] at hf
        cases hf
      have hall := (List.all_eq_true.mp hwf) s (List.mem_range.mpr hslt)
      simp only [] at hall
      rw [hf] at hall
      simp only [Bool.and_eq_true, decide_eq_true_eq] at hall
      obtain ⟨hflt, hcont⟩ := hall
      have hsmem : s ∈ ctx.xmm.getD f [] := List.mem_of_elem_eq_true hcont
      have hpred : (fun reg => (ctx.stack_slot.getD reg LinkMode.None).isRW) s = true := by
        show (ctx.stack_slot.getD s LinkMode.None).isRW = true
        rw [hf]
        rfl
      have hfiltmem : s ∈ (ctx.xmm.getD f []).filter
          (fun reg => (ctx.stack_slot.getD reg LinkMode.None).isRW) :=
        List.mem_filter.mpr ⟨hsmem, hpred⟩
      refine ⟨(f, (ctx.xmm.getD f []).filter
          (fun reg => (ctx.stack_slot.getD reg LinkMode.None).isRW)), ?_, hfiltmem⟩
      apply List.mem_filter.mpr
      refine ⟨?_, ?_⟩
      · apply List.mem_filterMap.mpr
        refine ⟨f, List.mem_range.mpr hflt, ?_⟩
        rw [if_neg ?_]
        intro hemp
        rw [List.isEmpty_iff] at hemp
        rw [hemp] at hsmem
        cases hsmem
      · simp only [Bool.not_eq_true', ← Bool.not_eq_true, List.isEmpty_iff]
        intro hnil
        rw [hnil] at hfiltmem
        cases hfiltmem
  · exact ⟨_, rfl⟩

/-- Witness for C2 (amended): in a context with slot 0 linked `XmmRW 1`,
the deopt entry does write slot 0 back. -/
theorem side_deopt_writes_back_exactly_rw_witness :
    0 ∈ deoptWrittenSlots (deoptEntry ⟨[LinkMode.XmmRW 1], [[], [0]]⟩ 9) :=
  ((side_deopt_writes_back_exactly_rw ⟨[LinkMode.XmmRW 1], [[], [0]]⟩ 9
    (by decide)).1 0).mpr ⟨1, by decide⟩

/-- Counterexample for C4: the claim asserts the box/unbox round trip is
bit-for-bit exact including for `f = -0.0`; boxing `-0.0` (bit pattern
`2 ^ 63`) takes the `ucomisd`-equal-to-zero entry path to the `FLOAT_ZERO`
sentinel, which unboxes as `+0.0` (bit pattern 0), so the round trip loses
the sign of zero. -/
theorem float_negzero_roundtrip_counterexample :
    floatRoundTrip (2 ^ 63) = some 0 ∧ (2 : Nat) ^ 63 ≠ 0 := by
  constructor
  · decide
  · decide

/-- C4 (amended): the box/unbox round trip through `f64_to_val` and the
assume-float `val_to_f64` is bit-for-bit exact for every 64-bit pattern
except two: `-0.0` (bit pattern `2 ^ 63`) round-trips to `+0.0`, and the
single pattern `0x3000000000000000` — whose inline rotate encoding
coincides with the `FLOAT_ZERO` sentinel — also round-trips to `+0.0`.  In
particular every finite non-NaN double other than those two is preserved
exactly, and a NaN input round-trips to a NaN, which compares non-equal to
the original under ordered (`ucomisd`) comparison. -/
theorem float_tag_roundtrip_amended (b : Nat) (hb : b < 2 ^ 64) :
    (b ≠ 2 ^ 63 → b ≠ 3 * 2 ^ 60 → floatRoundTrip b = some b) ∧
    floatRoundTrip (2 ^ 63) = some 0 ∧
    floatRoundTrip (3 * 2 ^ 60) = some 0 ∧
    (f64IsNan b = true → ∃ c, floatRoundTrip b = some c ∧ f64IsNan c = true ∧
        f64OrderedEq c b = false) := by
  have key : ∀ x : Nat, x < 17 → ((x &&& 6 = 4) ↔ (x % 8 = 4 ∨ x % 8 = 5)) := by
    decide
  have main : b ≠ 2 ^ 63 → b ≠ 3 * 2 ^ 60 → floatRoundTrip b = some b := by
    intro hz hcol
    unfold floatRoundTrip f64_to_val
    by_cases h0 : b = 0
    · subst h0; decide
    · rw [if_neg (by tauto)]
      by_cases hsel : (b / 2 ^ 60 + 1) &&& 6 = 4
      · rw [if_pos hsel]
        have h8 := (key _ (by omega)).mp hsel
        have ht : b / 2 ^ 60 = 3 ∨ b / 2 ^ 60 = 4 ∨
            b / 2 ^ 60 = 11 ∨ b / 2 ^ 60 = 12 := by omega
        rcases ht with ht | ht | ht | ht
        · have e1 : b % 2 ^ 61 * 8 + b / 2 ^ 61 = 2 ^ 63 + 8 * (b % 2 ^ 60) + 1 := by
            omega
          have e2 : andNeg4 (rolq3 b) + 2 = 2 ^ 63 + 8 * (b % 2 ^ 60) + 2 := by
            unfold rolq3 andNeg4
            rw [e1]
            omega
          rw [e2]
          apply decode_inline_closed
          · omega
          · omega
          · unfold FLOAT_ZERO
            omega
          · rw [if_neg (by omega)]
            unfold rorq3 andNeg4
            omega
        · have e1 : b % 2 ^ 61 * 8 + b / 2 ^ 61 = 8 * (b % 2 ^ 60) + 2 := by
            omega
          have e2 : andNeg4 (rolq3 b) + 2 = 8 * (b % 2 ^ 60) + 2 := by
            unfold rolq3 andNeg4
            rw [e1]
            omega
          rw [e2]
          apply decode_inline_closed
          · omega
          · omega
          · unfold FLOAT_ZERO
            omega
          · rw [if_pos (by omega)]
            unfold rorq3 andNeg4
            omega
        · have e1 : b % 2 ^ 61 * 8 + b / 2 ^ 61 = 2 ^ 63 + 8 * (b % 2 ^ 60) + 5 := by
            omega
          have e2 : andNeg4 (rolq3 b) + 2 = 2 ^ 63 + 8 * (b % 2 ^ 60) + 6 := by
            unfold rolq3 andNeg4
            rw [e1]
            omega
          rw [e2]
          apply decode_inline_closed
          · omega
          · omega
          · unfold FLOAT_ZERO
            omega
          · rw [if_neg (by omega)]
            unfold rorq3 andNeg4
            omega
        · have e1 : b % 2 ^ 61 * 8 + b / 2 ^ 61 = 8 * (b % 2 ^ 60) + 6 := by
            omega
          have e2 : andNeg4 (rolq3 b) + 2 = 8 * (b % 2 ^ 60) + 6 := by
            unfold rolq3 andNeg4
            rw [e1]
            omega
          rw [e2]
          apply decode_inline_closed
          · omega
          · omega
          · unfold FLOAT_ZERO
            omega
          · rw [if_pos (by omega)]
            unfold rorq3 andNeg4
            omega
      · rw [if_neg hsel]
        rfl
  refine ⟨main, by decide, by decide, ?_⟩
  intro hnan
  have hz : b ≠ 2 ^ 63 := by
    intro h
    rw [h] at hnan
    exact absurd hnan (by decide)
  have hcol : b ≠ 3 * 2 ^ 60 := by
    intro h
    rw [h] at hnan
    exact absurd hnan (by decide)
  refine ⟨b, main hz hcol, hnan, ?_⟩
  simp [f64OrderedEq, hnan]

/-- Witness for C4 (amended): the bit pattern of the double 42.0 survives
the round trip exactly. -/
theorem float_tag_roundtrip_amended_witness :
    floatRoundTrip 0x4045000000000000 = some 0x4045000000000000 :=
  (float_tag_roundtrip_amended 0x4045000000000000 (by norm_num)).1
    (by norm_num) (by norm_num)

/-- Helper: the invariant holds in the initial state. -/
theorem icInv_init (names : List Nat) : icInv (icInit names) := by
  intro i site hsite
  simp only [icInit, List.get?_eq_getElem?, List.getElem?_map] at hsite
  rcases Option.map_eq_some'.mp hsite with ⟨nm, -, rfl⟩
  refine ⟨by simp [icInit], fun hcontra => ?_⟩
  simp [icInit] at hcontra

/-- Helper: the invariant is preserved by every step. -/
theorem icInv_step (s : ICState) (e : ICEvent) (h : icInv s) :
    icInv (icStep s e) := by
  cases e with
  | methodDef cls nm fid =>
    intro i site hsite
    have h2 := h i site hsite
    constructor
    · have := h2.1
      simp only [icStep]
      omega
    · intro heq
      exfalso
      have := h2.1
      simp only [icStep] at heq
      omega
  | call i recvClass =>
    simp only [icStep]
    split
    · exact h
    · rename_i site hget
      split_ifs with hfast
      · exact h
      · split
        · exact h
        · rename_i fid hres
          intro j site2 hsite2
          have hilt : i < s.sites.length := by
            by_contra hge
            rw [List.get?_eq_getElem?, List.getElem?_eq_none (by omega)] at hget
            cases hget
          by_cases hji : j = i
          · subst hji
            simp only [List.get?_eq_getElem?] at hsite2
            rw [List.getElem?_set_self (by simpa using hilt)] at hsite2
            obtain rfl := Option.some_inj.mp hsite2
            exact ⟨le_refl _, fun _ => hres⟩
          · simp only [List.get?_eq_getElem?] at hsite2
            rw [List.getElem?_set_ne (fun hh => hji hh.symm)] at hsite2
            exact h j site2 (by simpa using hsite2)

/-- Helper: the invariant holds in every reachable state. -/
theorem icInv_run (s : ICState) (es : List ICEvent) (h : icInv s) :
    icInv (icRun s es) := by
  induction es generalizing s with
  | nil => exact h
  | cons e rest ih => exact ih _ (icInv_step s e h)

/-- Helper: a `MethodDef` makes every site stale. -/
theorem icStale_after_methodDef (s : ICState) (hinv : icInv s)
    (cls nm fid i : Nat) :
    icStale (icStep s (.methodDef cls nm fid)) i := by
  intro site hsite
  simp only [icStep] at hsite ⊢
  have h1 := (hinv i site hsite).1
  omega

/-- Helper: staleness of site `i` is preserved by any event that is not a
call to site `i`. -/
theorem icStale_step (s : ICState) (i : Nat) (e : ICEvent)
    (hst : icStale s i) (hne : ∀ rc, e ≠ .call i rc) :
    icStale (icStep s e) i := by
  cases e with
  | methodDef cls nm fid =>
    intro site hsite
    simp only [icStep] at hsite ⊢
    have := hst site hsite
    omega
  | call j rc =>
    have hji : j ≠ i := by
      intro hh
      exact (hne rc) (by rw [hh])
    simp only [icStep]
    split
    · exact hst
    · rename_i site hget
      split_ifs with hfast
      · exact hst
      · split
        · exact hst
        · rename_i fid hres
          intro site2 hsite2
          simp only [List.get?_eq_getElem?] at hsite2
          rw [List.getElem?_set_ne hji] at hsite2
          exact hst site2 (by simpa using hsite2)

/-- Helper: staleness of site `i` survives any event sequence that never
calls site `i`. -/
theorem icStale_run (s : ICState) (i : Nat) (post : List ICEvent)
    (hst : icStale s i) (hpost : ∀ rc, ICEvent.call i rc ∉ post) :
    icStale (icRun s post) i := by
  induction post generalizing s with
  | nil => exact hst
  | cons e rest ih =>
    refine ih _ (icStale_step s i e hst ?_) ?_
    · intro rc hh
      exact hpost rc (by rw [hh]; exact List.mem_cons_self _ _)
    · intro rc hh
      exact hpost rc (List.mem_cons_of_mem _ hh)

/-- C1: in every state reachable from the initial one, (a) whenever a
call site's fast path is taken — cached receiver class equal to the
dynamic receiver class and cached class version equal to the global
class version — the patched target the fast path invokes is exactly what
the current method table resolves the site's name to for that receiver
(a cache hit never invokes a stale target), and (b) after a `MethodDef`
(which increments the global class version before calling
`define_method`), the fast path of every previously populated site is
impossible until that site's next invocation re-resolves it through the
slow path, no matter what other events intervene. -/
theorem inline_cache_never_stale (names : List Nat) (events : List ICEvent)
    (i recvClass : Nat) :
    (∀ site, (icRun (icInit names) events).sites.get? i = some site →
        fastPathTaken (icRun (icInit names) events) i recvClass = true →
        resolve (icRun (icInit names) events).table recvClass site.name =
          some site.patched_target) ∧
    (∀ cls nm fid post, (∀ rc, ICEvent.call i rc ∉ post) →
        fastPathTaken
          (icRun (icStep (icRun (icInit names) events) (.methodDef cls nm fid))
            post) i recvClass = false) := by
  have hinv := icInv_run (icInit names) events (icInv_init names)
  constructor
  · intro site hsite hfast
    unfold fastPathTaken at hfast
    rw [hsite] at hfast
    simp only [Bool.and_eq_true, beq_iff_eq] at hfast
    obtain ⟨hrc, hver⟩ := hfast
    have h2 := (hinv i site hsite).2 hver
    rw [hrc]
    exact h2
  · intro cls nm fid post hpost
    have hstale := icStale_run _ i post
      (icStale_after_methodDef _ hinv cls nm fid i) hpost
    unfold fastPathTaken
    cases hsite : (icRun (icStep (icRun (icInit names) events)
        (.methodDef cls nm fid)) post).sites.get? i with
    | none => rfl
    | some site =>
      have hlt := hstale site hsite
      have hne2 : site.cached_version ≠
          ((icRun (icStep (icRun (icInit names) events)
            (.methodDef cls nm fid)) post).class_version : Int) := by omega
      simp [hne2]

/-- Witness for C1: with one call site and no prior events, right after a
`MethodDef` the site's fast path is not taken. -/
theorem inline_cache_never_stale_witness :
    fastPathTaken
      (icRun (icStep (icRun (icInit [5]) []) (.methodDef 1 5 3)) []) 0 0 =
      false :=
  (inline_cache_never_stale [5] [] 0 0).2 1 5 3 [] (fun _ h => nomatch h)
